import Mathlib

/-!
Verification of the conversational search backend (Next.js route `POST /api/search`
together with its helpers `processRawContent`, `mergeSearchResults`, `searchTavily`).

Shallow embedding conventions:
* JavaScript strings are modelled as `String` / `List Char`; all character scanning
  is done on `List Char`.
* Recursions that are not structural in the source (regex-style scans over a buffer)
  are given an explicit fuel argument that is always instantiated with an amount
  derived from the input length, so every definition is executable by `decide` and
  `rfl`.
* Fallible operations are modelled with `Except String`; outbound network calls are
  modelled by an environment record holding each upstream call's outcome.
* `number` scores are modelled as `ℚ`: the code only ever compares scores and
  subtracts them to obtain a sort ordering, which is exact in any linear order.
-/

/-- The brace characters, named so that scanning code stays readable. -/
def lcurly : Char := '\x7b'

def rcurly : Char := '\x7d'

/-- The JavaScript `\s` / `String.prototype.trim` whitespace set (ECMA-262
WhiteSpace ∪ LineTerminator). -/
def isJsWs (c : Char) : Bool :=
  c = ' ' || c = '\t' || c = '\n' || c = '\r' || c = '\x0b' || c = '\x0c' ||
  c = ' ' || c = ' ' ||
  (' ' ≤ c && c ≤ ' ') ||
  c = ' ' || c = ' ' || c = ' ' || c = ' ' ||
  c = '　' || c = '﻿'

/-- Drop trailing characters satisfying `p` (helper for `trimBoth`). -/
def dropTrailing (p : Char → Bool) (l : List Char) : List Char :=
  (l.reverse.dropWhile p).reverse

/-- JavaScript `String.prototype.trim` on a character list. -/
def trimBoth (l : List Char) : List Char :=
  dropTrailing isJsWs (l.dropWhile isJsWs)

/-- JavaScript `String.prototype.trim`. -/
def jsTrim (s : String) : String :=
  String.mk (trimBoth s.data)

/-! ## Content sanitizer (`src/lib/content-processor.ts`, `processRawContent`) -/

/-- Characters after the first `'>'`, if any (the span a `<[^>]*>` match would
consume after its opening `'<'`). -/
def afterGt : List Char → Option (List Char)
  | [] => none
  | c :: rest => if c = '>' then some rest else afterGt rest

/-- `rawContent.replace(/<[^>]*>/g, " ")`: each maximal `<...>` span (up to the
first `'>'`) becomes a single space; a `'<'` with no later `'>'` is kept.
Fuel-driven; `stripTags` supplies fuel `l.length`, which suffices because every
step consumes at least one character. -/
def stripTagsGo : Nat → List Char → List Char
  | 0, l => l
  | _ + 1, [] => []
  | fuel + 1, c :: rest =>
    if c = '<' then
      match afterGt rest with
      | some after => ' ' :: stripTagsGo fuel after
      | none => c :: stripTagsGo fuel rest
    else c :: stripTagsGo fuel rest

def stripTags (l : List Char) : List Char :=
  stripTagsGo l.length l

/-- JavaScript `s.replace(/pat/g, rep)` for a plain-text pattern: leftmost match,
global, scanning resumes after the matched span (the replacement itself is not
rescanned). Fuel-driven as above. -/
def replaceAllGo (pat rep : List Char) : Nat → List Char → List Char
  | 0, l => l
  | _ + 1, [] => []
  | fuel + 1, c :: rest =>
    if pat ≠ [] ∧ pat.isPrefixOf (c :: rest) then
      rep ++ replaceAllGo pat rep fuel ((c :: rest).drop pat.length)
    else c :: replaceAllGo pat rep fuel rest

def replaceAll (pat rep l : List Char) : List Char :=
  replaceAllGo pat rep l.length l

/-- The chained entity decoding, in source order: `&nbsp;`, `&amp;`, `&lt;`,
`&gt;`, `&quot;`, `&#39;`, `&apos;`. Each `.replace` runs on the result of the
previous one. -/
def decodeEntities (l : List Char) : List Char :=
  replaceAll "&apos;".data ['\''] <|
  replaceAll "&#39;".data ['\''] <|
  replaceAll "&quot;".data ['\"'] <|
  replaceAll "&gt;".data ['>'] <|
  replaceAll "&lt;".data ['<'] <|
  replaceAll "&amp;".data ['&'] <|
  replaceAll "&nbsp;".data [' '] l

/-- `.replace(/\s+/g, " ")`: every maximal whitespace run becomes one space.
The boolean argument records whether we are inside a run that already emitted
its space. -/
def collapseWsGo : Bool → List Char → List Char
  | _, [] => []
  | inRun, c :: rest =>
    if isJsWs c then
      if inRun then collapseWsGo true rest
      else ' ' :: collapseWsGo true rest
    else c :: collapseWsGo false rest

def collapseWs (l : List Char) : List Char :=
  collapseWsGo false l

/-- Index (0-based) of the last `'\n'` in `l`, if any. -/
def lastNlIdx : List Char → Option Nat
  | [] => none
  | c :: rest =>
    match lastNlIdx rest with
    | some j => some (j + 1)
    | none => if c = '\n' then some 0 else none

/-- `.replace(/\n\s*\n/g, "\n")`: at a `'\n'`, the greedy `\s*` backtracks to the
last `'\n'` inside the maximal whitespace run that follows; if the run holds no
further `'\n'` there is no match at this position. Fuel-driven. -/
def collapseNlGo : Nat → List Char → List Char
  | 0, l => l
  | _ + 1, [] => []
  | fuel + 1, c :: rest =>
    if c = '\n' then
      match lastNlIdx (rest.takeWhile isJsWs) with
      | some j => '\n' :: collapseNlGo fuel (rest.drop (j + 1))
      | none => c :: collapseNlGo fuel rest
    else c :: collapseNlGo fuel rest

def collapseNl (l : List Char) : List Char :=
  collapseNlGo l.length l

/-- The whitespace-normalisation stage of the sanitizer:
`.replace(/\s+/g, " ").replace(/\n\s*\n/g, "\n").trim()`. -/
def normWs (l : List Char) : List Char :=
  trimBoth (collapseNl (collapseWs l))

/-- The allow-list of `/[^\w\s.,!?;:()\-'"]/g`: word characters, whitespace and
basic punctuation survive; everything else is deleted. -/
def allowPass (c : Char) : Bool :=
  ('a' ≤ c && c ≤ 'z') || ('A' ≤ c && c ≤ 'Z') || ('0' ≤ c && c ≤ '9') ||
  c = '_' || isJsWs c ||
  c = '.' || c = ',' || c = '!' || c = '?' || c = ';' || c = ':' ||
  c = '(' || c = ')' || c = '-' || c = '\'' || c = '\"'

/-- JavaScript `String.prototype.lastIndexOf` for a single character, `-1` when
absent. -/
def lastIndexOfC (l : List Char) (c : Char) : Int :=
  match l.reverse.findIdx? (fun x => x = c) with
  | some j => (l.length : Int) - 1 - (j : Int)
  | none => -1

/-- The truncation stage: keep strings of at most 300 characters; otherwise cut
at the last sentence end when it lies in the final 20% of the window, else at
the last space (appending an ellipsis), else hard-cut with an ellipsis. -/
def truncate300 (cleaned : List Char) : List Char :=
  if cleaned.length ≤ 300 then cleaned
  else
    let truncated := cleaned.take 300
    let lastPeriod := lastIndexOfC truncated '.'
    let lastQuestion := lastIndexOfC truncated '?'
    let lastExclamation := lastIndexOfC truncated '!'
    let lastSentenceEnd := max lastPeriod (max lastQuestion lastExclamation)
    if lastSentenceEnd > 240 then
      trimBoth (truncated.take (lastSentenceEnd.toNat + 1))
    else
      let lastSpace := lastIndexOfC truncated ' '
      if lastSpace > 0 then
        trimBoth (truncated.take lastSpace.toNat) ++ "...".data
      else
        trimBoth truncated ++ "...".data

/-- The sanitizer pipeline on character lists, in source order: strip tags,
decode entities, normalise whitespace, drop disallowed characters, truncate. -/
def processRawContentCore (l : List Char) : List Char :=
  truncate300 ((normWs (decodeEntities (stripTags l))).filter allowPass)

/-- `processRawContent` from `src/lib/content-processor.ts`. The
`typeof rawContent !== "string"` guard is outside the typed model; the falsy
guard maps the empty string to the empty string. -/
def processRawContent (rawContent : String) : String :=
  if rawContent = "" then ""
  else String.mk (processRawContentCore rawContent.data)

/-- The sanitizer body written against `Except`: the source body contains no
`throw` and uses only total string operations, so every step is a plain `pure`.
Used to settle that the route's per-result `catch` is unreachable. -/
def processRawContentE (rawContent : String) : Except String String :=
  if rawContent = "" then Except.ok ""
  else do
    let cleaned := stripTags rawContent.data
    let cleaned := decodeEntities cleaned
    let cleaned := normWs cleaned
    let cleaned := cleaned.filter allowPass
    Except.ok (String.mk (truncate300 cleaned))

/-! ## Search results and `mergeSearchResults` (`src/lib/content-processor.ts`) -/

/-- The Tavily `SearchResult` record (`types/index.ts`), plus the `fullContent`
field the route adds while post-processing. Scores are JavaScript numbers used
only in comparisons, modelled as `ℚ`. -/
structure SearchResult where
  title : String
  url : String
  content : String
  score : ℚ
  raw_content : Option String
  fullContent : Option String
deriving DecidableEq

/-- JavaScript `Map.prototype.set` on an insertion-ordered association list:
replacing an existing key keeps its position, a fresh key is appended. -/
def urlMapSet : List (String × SearchResult) → String → SearchResult → List (String × SearchResult)
  | [], k, v => [(k, v)]
  | (k', v') :: rest, k, v =>
    if k' = k then (k', v) :: rest else (k', v') :: urlMapSet rest k v

/-- JavaScript `Map.prototype.get`. -/
def urlMapGet : List (String × SearchResult) → String → Option SearchResult
  | [], _ => none
  | (k', v') :: rest, k => if k' = k then some v' else urlMapGet rest k

/-- First loop of `mergeSearchResults`: `urlMap.set(result.url, result)` for
every entry of the first argument. -/
def addFirstSet (m : List (String × SearchResult)) (rs : List SearchResult) :
    List (String × SearchResult) :=
  rs.foldl (fun m r => urlMapSet m r.url r) m

/-- Second loop of `mergeSearchResults`: keep the second set's entry only when
the URL is fresh or its score is strictly greater. -/
def addSecondSet (m : List (String × SearchResult)) (rs : List SearchResult) :
    List (String × SearchResult) :=
  rs.foldl (fun m r =>
    match urlMapGet m r.url with
    | none => urlMapSet m r.url r
    | some existing => if r.score > existing.score then urlMapSet m r.url r else m) m

/-- Stable insertion of `r` into a descending-by-score list: walk past entries
with strictly greater score, then place `r` (before score ties, matching the
stability of `Array.prototype.sort` with comparator `(a, b) => b.score - a.score`). -/
def insertByScoreDesc (r : SearchResult) : List SearchResult → List SearchResult
  | [] => [r]
  | s :: rest =>
    if s.score > r.score then s :: insertByScoreDesc r rest else r :: s :: rest

/-- Stable descending-by-score sort (`.sort((a, b) => b.score - a.score)`). -/
def sortByScoreDesc (l : List SearchResult) : List SearchResult :=
  l.foldr insertByScoreDesc []

/-- `mergeSearchResults` from `src/lib/content-processor.ts`. -/
def mergeSearchResults (results1 results2 : List SearchResult) : List SearchResult :=
  sortByScoreDesc ((addSecondSet (addFirstSet [] results1) results2).map Prod.snd)

/-! ## JSON values and `JSON.parse` (used by the stream decoder) -/

/-- JSON values. Numbers keep their raw lexeme: the decoder only ever tests
numbers for truthiness, never does arithmetic on them. -/
inductive Json where
  | null
  | bool (b : Bool)
  | num (raw : String)
  | str (s : String)
  | arr (xs : List Json)
  | obj (fields : List (String × Json))

/-- The whitespace accepted between JSON tokens by `JSON.parse`. -/
def isJsonWs (c : Char) : Bool :=
  c = ' ' || c = '\t' || c = '\n' || c = '\r'

def hexVal (c : Char) : Option Nat :=
  if '0' ≤ c ∧ c ≤ '9' then some (c.toNat - '0'.toNat)
  else if 'a' ≤ c ∧ c ≤ 'f' then some (c.toNat - 'a'.toNat + 10)
  else if 'A' ≤ c ∧ c ≤ 'F' then some (c.toNat - 'A'.toNat + 10)
  else none

/-- JSON string body after the opening quote: ordinary characters, the short
escapes and `\uXXXX`. Characters below `0x20` are rejected, as in `JSON.parse`.
(Surrogate-pair recombination is outside the `Char` model; none of the inputs
considered here use it.) -/
def parseStringGo : Nat → List Char → Option (List Char × List Char)
  | 0, _ => none
  | _ + 1, [] => none
  | fuel + 1, c :: rest =>
    if c = '\"' then some ([], rest)
    else if c = '\\' then
      match rest with
      | [] => none
      | e :: rest2 =>
        if e = 'u' then
          match rest2 with
          | h1 :: h2 :: h3 :: h4 :: rest3 =>
            match hexVal h1, hexVal h2, hexVal h3, hexVal h4 with
            | some a, some b, some c3, some d =>
              match parseStringGo fuel rest3 with
              | some (s, r) => some (Char.ofNat (((a * 16 + b) * 16 + c3) * 16 + d) :: s, r)
              | none => none
            | _, _, _, _ => none
          | _ => none
        else
          let ec : Option Char :=
            if e = '\"' then some '\"'
            else if e = '\\' then some '\\'
            else if e = '/' then some '/'
            else if e = 'b' then some '\x08'
            else if e = 'f' then some '\x0c'
            else if e = 'n' then some '\n'
            else if e = 'r' then some '\r'
            else if e = 't' then some '\t'
            else none
          match ec with
          | some ch =>
            match parseStringGo fuel rest2 with
            | some (s, r) => some (ch :: s, r)
            | none => none
          | none => none
    else if c.toNat < 32 then none
    else
      match parseStringGo fuel rest with
      | some (s, r) => some (c :: s, r)
      | none => none

def isDigit (c : Char) : Bool := '0' ≤ c && c ≤ '9'

/-- JSON number lexeme: `-? int frac? exp?` with the leading-zero restriction. -/
def parseNumber (cs : List Char) : Option (Json × List Char) :=
  let (sign, cs1) := match cs with
    | '-' :: rest => (['-'], rest)
    | _ => (([] : List Char), cs)
  let intPart := cs1.takeWhile isDigit
  let cs2 := cs1.drop intPart.length
  if intPart = [] then none
  else if intPart.length > 1 ∧ intPart.headD '0' = '0' then none
  else
    let (fracPart, cs3) :=
      match cs2 with
      | '.' :: rest =>
        let ds := rest.takeWhile isDigit
        if ds = [] then (none, cs2) else (some ('.' :: ds), rest.drop ds.length)
      | _ => (none, cs2)
    match fracPart, cs3 with
    | none, '.' :: _ => none
    | _, _ =>
      let (expPart, cs4) :=
        match cs3 with
        | e :: rest =>
          if e = 'e' ∨ e = 'E' then
            let (es, rest2) := match rest with
              | '+' :: r => (['+'], r)
              | '-' :: r => (['-'], r)
              | _ => (([] : List Char), rest)
            let ds := rest2.takeWhile isDigit
            if ds = [] then (none, cs3) else (some (e :: (es ++ ds)), rest2.drop ds.length)
          else (none, cs3)
        | [] => (none, cs3)
      match expPart, cs4 with
      | none, e :: _ =>
        if e = 'e' ∨ e = 'E' then none
        else some (Json.num (String.mk (sign ++ intPart ++ fracPart.getD [])), cs4)
      | _, _ => some (Json.num (String.mk (sign ++ intPart ++ fracPart.getD [] ++ expPart.getD [])), cs4)

def expectLit (lit : List Char) (cs : List Char) : Option (List Char) :=
  if lit.isPrefixOf cs then some (cs.drop lit.length) else none

mutual

/-- Recursive-descent JSON value parser; fuel decreases on every nested call. -/
def parseValueGo : Nat → List Char → Option (Json × List Char)
  | 0, _ => none
  | fuel + 1, cs =>
    match cs.dropWhile isJsonWs with
    | [] => none
    | c :: rest =>
      if c = '\"' then
        match parseStringGo (rest.length + 1) rest with
        | some (s, r) => some (Json.str (String.mk s), r)
        | none => none
      else if c = lcurly then parseObjGo fuel rest
      else if c = '[' then parseArrGo fuel rest
      else if c = 't' then
        match expectLit "rue".data rest with
        | some r => some (Json.bool true, r)
        | none => none
      else if c = 'f' then
        match expectLit "alse".data rest with
        | some r => some (Json.bool false, r)
        | none => none
      else if c = 'n' then
        match expectLit "ull".data rest with
        | some r => some (Json.null, r)
        | none => none
      else parseNumber (c :: rest)

/-- Object body after the opening brace. -/
def parseObjGo : Nat → List Char → Option (Json × List Char)
  | 0, _ => none
  | fuel + 1, cs =>
    match cs.dropWhile isJsonWs with
    | [] => none
    | c :: rest =>
      if c = rcurly then some (Json.obj [], rest)
      else if c = '\"' then
        match parseStringGo (rest.length + 1) rest with
        | some (k, r1) =>
          match r1.dropWhile isJsonWs with
          | ':' :: r2 =>
            match parseValueGo fuel r2 with
            | some (v, r3) => parseObjMembers fuel (String.mk k) v r3
            | none => none
          | _ => none
        | none => none
      else none

/-- Remaining object members after one complete `key : value` pair. -/
def parseObjMembers : Nat → String → Json → List Char → Option (Json × List Char)
  | 0, _, _, _ => none
  | fuel + 1, k, v, cs =>
    match cs.dropWhile isJsonWs with
    | c :: rest =>
      if c = rcurly then some (Json.obj [(k, v)], rest)
      else if c = ',' then
        match parseObjGo fuel rest with
        | some (Json.obj fields, r) =>
          match fields with
          | [] => none
          | _ => some (Json.obj ((k, v) :: fields), r)
        | _ => none
      else none
    | [] => none

/-- Array body after the opening bracket. -/
def parseArrGo : Nat → List Char → Option (Json × List Char)
  | 0, _ => none
  | fuel + 1, cs =>
    match cs.dropWhile isJsonWs with
    | ']' :: rest => some (Json.arr [], rest)
    | _ =>
      match parseValueGo fuel cs with
      | some (v, r) => parseArrElems fuel v r
      | none => none

/-- Remaining array elements after one complete element. -/
def parseArrElems : Nat → Json → List Char → Option (Json × List Char)
  | 0, _, _ => none
  | fuel + 1, v, cs =>
    match cs.dropWhile isJsonWs with
    | c :: rest =>
      if c = ']' then some (Json.arr [v], rest)
      else if c = ',' then
        match parseArrGo fuel rest with
        | some (Json.arr xs, r) =>
          match xs with
          | [] => none
          | _ => some (Json.arr (v :: xs), r)
        | _ => none
      else none
    | [] => none

end

/-- `JSON.parse`: a single value, then only trailing whitespace. -/
def jsonParse (cs : List Char) : Option Json :=
  match parseValueGo (2 * cs.length + 8) cs with
  | some (v, rest) => if rest.dropWhile isJsonWs = [] then some v else none
  | none => none

/-- Last-binding lookup in an object's field list (`JSON.parse` keeps the last
duplicate key, and property access returns that binding). -/
def jGetFields : List (String × Json) → String → Option Json
  | [], _ => none
  | (k', v) :: rest, k =>
    match jGetFields rest k with
    | some v2 => some v2
    | none => if k' = k then some v else none

/-- Property access `o[k]` as used with optional chaining: `none` models
`undefined` (also the result of property access on non-objects). -/
def jGet : Json → String → Option Json
  | Json.obj fields, k => jGetFields fields k
  | _, _ => none

/-- Index access `a?.[i]`. -/
def jIndex : Json → Nat → Option Json
  | Json.arr xs, i => xs.get? i
  | _, _ => none

/-- Is a JSON number lexeme a zero literal (the only falsy numbers reachable
from JSON source text, underflow aside). -/
def numLiteralZero (raw : String) : Bool :=
  (raw.data.takeWhile (fun c => !(c = 'e' || c = 'E'))).all
    (fun c => c = '0' || c = '-' || c = '+' || c = '.')

/-- JavaScript truthiness of a parsed JSON value. -/
def jsTruthy : Json → Bool
  | Json.null => false
  | Json.bool b => b
  | Json.num raw => !numLiteralZero raw
  | Json.str s => s ≠ ""
  | Json.arr _ => true
  | Json.obj _ => true

/-! ## Incremental stream decoder (`route.ts` lines 339-454) -/

/-- The brace-matching scan of the decoder: walk the buffer with a brace depth,
an in-string flag and an escaped flag; report the index one past the brace that
returns the depth to zero (`endIndex`), or `none` when the object is still
incomplete. -/
def scanObjEnd : List Char → Nat → Int → Bool → Bool → Option Nat
  | [], _, _, _, _ => none
  | c :: rest, i, braceCount, inString, escaped =>
    if escaped then scanObjEnd rest (i + 1) braceCount inString false
    else if c = '\\' then scanObjEnd rest (i + 1) braceCount inString true
    else if c = '\"' then scanObjEnd rest (i + 1) braceCount (!inString) escaped
    else if !inString ∧ c = lcurly then scanObjEnd rest (i + 1) (braceCount + 1) inString escaped
    else if !inString ∧ c = rcurly then
      if braceCount - 1 = 0 then some (i + 1)
      else scanObjEnd rest (i + 1) (braceCount - 1) inString escaped
    else scanObjEnd rest (i + 1) braceCount inString escaped

/-- `parsed.candidates?.[0]?.content?.parts?.[0]?.text`, expected to be a
string (the Gemini schema types it so). -/
def geminiText (parsed : Json) : Option String := do
  let cands ← jGet parsed "candidates"
  let c0 ← jIndex cands 0
  let content ← jGet c0 "content"
  let parts ← jGet content "parts"
  let p0 ← jIndex parts 0
  let t ← jGet p0 "text"
  match t with
  | Json.str s => some s
  | _ => none

/-- Handling of one complete JSON object sliced out of the buffer (the inner
`try`/`catch` at lines 414-443). `none` means no `text` event is produced:
parse failure is logged and skipped, and — because the `throw` for an upstream
error payload is caught by this very `catch` — an error payload is *also*
logged and skipped. -/
def extractFragment (jsonStr : List Char) : Option String :=
  match jsonParse jsonStr with
  | none => none
  | some parsed =>
    if (jGet parsed "error").elim false jsTruthy then none
    else
      let content := (geminiText parsed).getD ""
      if content = "" then none else some content

/-- One run of the inner `while (processedSomething && buffer.length > 0)` loop:
returns the fragments emitted and the buffer left for the next chunk. Mirrors
the source exactly; in particular the `[`-branch does *not* set
`processedSomething`, so after consuming a `'['` the loop exits. Fuel-driven;
each continuing branch consumes at least one character. -/
def processBufferGo : Nat → List Char → List String × List Char
  | 0, buffer => ([], buffer)
  | fuel + 1, buffer =>
    let trimmed := buffer.dropWhile isJsWs
    match trimmed with
    | [] => ([], buffer)
    | c :: rest =>
      if c = '[' then ([], rest)
      else if c = ']' ∨ c = ',' then processBufferGo fuel rest
      else if c = lcurly then
        match scanObjEnd trimmed 0 0 false false with
        | some endIndex =>
          let jsonStr := trimmed.take endIndex
          let out := processBufferGo fuel (trimmed.drop endIndex)
          ((extractFragment jsonStr).toList ++ out.1, out.2)
        | none => ([], buffer)
      else processBufferGo fuel rest

def processBuffer (buffer : List Char) : List String × List Char :=
  processBufferGo (buffer.length + 1) buffer

/-- The outer read loop: append each received chunk to the buffer, run the inner
loop, and drop whatever is left in the buffer when the stream ends. -/
def feedChunks : List String → List Char → List String
  | [], _buffer => []
  | chunk :: rest, buffer =>
    let out := processBuffer (buffer ++ chunk.data)
    out.1 ++ feedChunks rest out.2

/-- All text fragments the decoder yields for a given chunked delivery of the
upstream body. -/
def decodeChunks (chunks : List String) : List String :=
  feedChunks chunks []

/-! ## Outbound event stream (`route.ts` lines 269-486) -/

/-- The tagged union of outbound events, one per `data: <JSON>` line. -/
inductive OutboundEvent where
  | reformulatedQuery (query : String)
  | sources (sources : List SearchResult)
  | text (content : String)
  | done
  | error (error : String) (details : String)
deriving DecidableEq

/-- Observable actions on the response stream: enqueueing one event, or closing
the controller. -/
inductive StreamAction where
  | emit (e : OutboundEvent)
  | close
deriving DecidableEq

/-- Outcome of the streaming Gemini call, as seen by the `start` callback:
the fetch itself rejects; a non-ok status; an ok response without a body; or a
body delivered as a list of chunks, optionally cut short by a read failure. -/
inductive GeminiOutcome where
  | fetchFailed (msg : String)
  | badStatus (status : Nat) (body : String)
  | noBody
  | chunks (received : List String) (readFailure : Option String)

/-- Events enqueued by the `start` callback, in order. The reformulated-query
event is guarded by the same truthiness test as in the source
(`if (reformulatedQuery)`), the sources event is unconditional, then either the
decoded text fragments followed by `done`, or the in-stream `error` event
produced by the surrounding `catch`. -/
def streamEvents (reformulatedQuery : Option String) (searchResults : List SearchResult)
    (out : GeminiOutcome) : List OutboundEvent :=
  let streamErr := fun (details : String) =>
    [OutboundEvent.error "Error while streaming AI response" details]
  (match reformulatedQuery with
   | some q => if q = "" then [] else [OutboundEvent.reformulatedQuery q]
   | none => []) ++
  [OutboundEvent.sources searchResults] ++
  (match out with
   | GeminiOutcome.fetchFailed msg => streamErr msg
   | GeminiOutcome.badStatus status body =>
     streamErr ("Gemini API returned status " ++ toString status ++ ": " ++ body)
   | GeminiOutcome.noBody => streamErr "No response body from Gemini"
   | GeminiOutcome.chunks received readFailure =>
     (decodeChunks received).map OutboundEvent.text ++
     (match readFailure with
      | none => [OutboundEvent.done]
      | some msg => streamErr msg))

/-- The full action trace of one response stream: the events, then the
`finally` block's `controller.close()`. -/
def streamTrace (reformulatedQuery : Option String) (searchResults : List SearchResult)
    (out : GeminiOutcome) : List StreamAction :=
  (streamEvents reformulatedQuery searchResults out).map StreamAction.emit ++
  [StreamAction.close]

/-! ## The route handler (`route.ts`, `POST`) -/

/-- One entry of the caller-held conversation history
(`conversationEntrySchema`; the `sources` array is irrelevant to control flow
and omitted). -/
structure ConversationEntry where
  query : String
  answer : String
  reformulatedQuery : Option String
deriving DecidableEq

/-- Outcomes of every outbound call the handler makes, plus the configuration
read from the environment. `reformulateResponse` is the reformulation call's
result: `.error` for a network failure, non-ok status or unparsable body,
`.ok s` for the trimmed `candidates[0].content.parts[0].text` (possibly empty
when the field is missing or blank). `tavily` maps the (trimmed) query string
actually sent to the search call's outcome. -/
structure Env where
  googleKey : Option String
  tavilyKey : Option String
  reformulateResponse : Except String String
  tavily : String → Except String (List SearchResult)
  gemini : GeminiOutcome

/-- A route response: a structured JSON error with its transport status, or the
event-stream response with its action trace. -/
inductive RouteResult where
  | json (status : Nat) (error : String) (details : String)
  | stream (trace : List StreamAction)

/-- `reformulateQuery` (route.ts lines 34-91): the extracted text falls back to
the original query when empty (`... || query`); any failure is propagated to
the caller's `catch`. -/
def reformulateQuery (query : String) (env : Env) : Except String String :=
  match env.reformulateResponse with
  | Except.error e => Except.error e
  | Except.ok s => Except.ok (if s = "" then query else s)

/-- `searchTavily` (`src/lib/search.ts`): missing key and blank query throw
before the request; request failures are rethrown with context. The fetch sends
`query.trim()`. -/
def searchTavily (query : String) (env : Env) : Except String (List SearchResult) :=
  match env.tavilyKey with
  | none => Except.error "TAVILY_API_KEY is not configured. Please add it to your .env.local file."
  | some _ =>
    if jsTrim query = "" then Except.error "Search query cannot be empty"
    else
      match env.tavily (jsTrim query) with
      | Except.error e =>
        Except.error ("Failed to fetch Tavily results for query: \"" ++ query ++ "\". Error: " ++ e)
      | Except.ok rs => Except.ok rs

/-- `Promise.all` over two already-started calls; if either rejects the whole
step rejects (the model keeps the first argument's rejection when both fail). -/
def promiseAll {α β : Type} (a : Except String α) (b : Except String β) :
    Except String (α × β) :=
  match a, b with
  | Except.ok x, Except.ok y => Except.ok (x, y)
  | Except.error e, _ => Except.error e
  | _, Except.error e => Except.error e

/-- Step 2 of the handler: reformulate only when history is present and
non-empty; a failure is logged and the turn continues with `null`. -/
def reformulatedQueryOf (q : String) (history : List ConversationEntry) (env : Env) :
    Option String :=
  if history.length > 0 then
    match reformulateQuery q env with
    | Except.ok r => some r
    | Except.error _ => none
  else none

/-- Step 3 of the handler: `if (reformulatedQuery)` (truthiness, so the empty
string falls through) search both queries in parallel and merge, else search
the original query alone. -/
def searchStage (q : String) (rq : Option String) (env : Env) :
    Except String (List SearchResult) :=
  match rq with
  | some r =>
    if r ≠ "" then
      (promiseAll (searchTavily q env) (searchTavily r env)).map
        (fun p => mergeSearchResults p.1 p.2)
    else searchTavily q env
  | none => searchTavily q env

/-- The per-result enrichment with its `try`/`catch`: on success `fullContent`
is the sanitized raw content (or the snippet when no raw content came back); the
`catch` would fall back to the snippet. -/
def tryProcess (r : SearchResult) : SearchResult :=
  let attempt : Except String String :=
    match r.raw_content with
    | some rc => processRawContentE rc
    | none => Except.ok r.content
  match attempt with
  | Except.ok fc => { r with fullContent := some fc }
  | Except.error _ => { r with fullContent := some r.content }

/-- The `POST` handler after JSON body parsing, with the zod validation applied
in source order: `z.string().min(1).trim()` checks the minimum length on the
*untrimmed* input and only then applies the trim transform. -/
def POST (query : String) (conversationHistory : List ConversationEntry) (env : Env) :
    RouteResult :=
  if query.length < 1 then
    RouteResult.json 400 "Invalid request: query is required and cannot be empty"
      "String must contain at least 1 character(s)"
  else
    match env.googleKey with
    | none =>
      RouteResult.json 500 "GOOGLE_GENERATIVE_AI_API_KEY is not configured"
        "Please add it to your .env.local file."
    | some _ =>
      match searchStage (jsTrim query)
          (reformulatedQueryOf (jsTrim query) conversationHistory env) env with
      | Except.error e =>
        RouteResult.json 500
          ("Failed to fetch search results for query: \"" ++ jsTrim query ++ "\"") e
      | Except.ok results =>
        if (results.map tryProcess).length = 0 then
          RouteResult.json 404
            ("No search results found for query: \"" ++ jsTrim query ++ "\"")
            "Tavily returned an empty result set"
        else
          RouteResult.stream
            (streamTrace (reformulatedQueryOf (jsTrim query) conversationHistory env)
              (results.map tryProcess) env.gemini)

/-! ## Lemmas about the sanitizer -/

theorem mem_of_mem_dropTrailing {p : Char → Bool} {l : List Char} {c : Char}
    (h : c ∈ dropTrailing p l) : c ∈ l := by
  unfold dropTrailing at h
  rw [List.mem_reverse] at h
  have := (List.dropWhile_sublist (l := l.reverse) (p := p)).subset h
  rwa [List.mem_reverse] at this

theorem mem_of_mem_trimBoth {l : List Char} {c : Char} (h : c ∈ trimBoth l) : c ∈ l := by
  unfold trimBoth at h
  exact (List.dropWhile_sublist (l := l) (p := isJsWs)).subset (mem_of_mem_dropTrailing h)

theorem mem_truncate300 {l : List Char} {c : Char} (h : c ∈ truncate300 l) :
    c ∈ l ∨ c = '.' := by
  unfold truncate300 at h
  by_cases hlen : l.length ≤ 300
  · simp only [if_pos hlen] at h
    exact Or.inl h
  · simp only [if_neg hlen] at h
    by_cases hse : max (lastIndexOfC (l.take 300) '.')
        (max (lastIndexOfC (l.take 300) '?') (lastIndexOfC (l.take 300) '!')) > 240
    · simp only [if_pos hse] at h
      exact Or.inl ((List.take_subset _ _) ((List.take_subset _ _) (mem_of_mem_trimBoth h)))
    · simp only [if_neg hse] at h
      by_cases hsp : lastIndexOfC (l.take 300) ' ' > 0
      · simp only [if_pos hsp] at h
        rcases List.mem_append.mp h with h1 | h1
        · exact Or.inl ((List.take_subset _ _) ((List.take_subset _ _) (mem_of_mem_trimBoth h1)))
        · right
          simp only [List.mem_cons] at h1
          rcases h1 with rfl | rfl | rfl | h1 <;> first | rfl | cases h1
      · simp only [if_neg hsp] at h
        rcases List.mem_append.mp h with h1 | h1
        · exact Or.inl ((List.take_subset _ _) (mem_of_mem_trimBoth h1))
        · right
          simp only [List.mem_cons] at h1
          rcases h1 with rfl | rfl | rfl | h1 <;> first | rfl | cases h1

theorem allowPass_of_mem_core {l : List Char} :
    ∀ c ∈ processRawContentCore l, allowPass c = true := by
  intro c hc
  unfold processRawContentCore at hc
  rcases mem_truncate300 hc with h | h
  · exact List.of_mem_filter h
  · subst h; decide

theorem stripTagsGo_id {l : List Char} (h : '<' ∉ l) : ∀ fuel, stripTagsGo fuel l = l := by
  induction l with
  | nil => intro fuel; cases fuel <;> rfl
  | cons c rest ih =>
    intro fuel
    cases fuel with
    | zero => rfl
    | succ f =>
      have hc : ¬c = '<' := fun hh => h (hh ▸ List.mem_cons_self c rest)
      have hrest : '<' ∉ rest := fun hh => h (List.mem_cons_of_mem c hh)
      simp [stripTagsGo, hc, ih hrest]

theorem stripTags_id {l : List Char} (h : '<' ∉ l) : stripTags l = l :=
  stripTagsGo_id h l.length

theorem replaceAllGo_id {p : Char} {pt rep l : List Char} (h : p ∉ l) :
    ∀ fuel, replaceAllGo (p :: pt) rep fuel l = l := by
  induction l with
  | nil => intro fuel; cases fuel <;> rfl
  | cons c rest ih =>
    intro fuel
    cases fuel with
    | zero => rfl
    | succ f =>
      have hc : ¬p = c := fun hh => h (hh ▸ List.mem_cons_self c rest)
      have hpre : ¬((p :: pt) ≠ [] ∧ (p :: pt).isPrefixOf (c :: rest)) := by
        rintro ⟨-, hpre⟩
        simp only [List.isPrefixOf, Bool.and_eq_true, beq_iff_eq] at hpre
        exact hc hpre.1
      have hrest : p ∉ rest := fun hh => h (List.mem_cons_of_mem c hh)
      simp only [replaceAllGo, if_neg hpre, ih hrest]

theorem replaceAll_id {p : Char} {pt rep l : List Char} (h : p ∉ l) :
    replaceAll (p :: pt) rep l = l :=
  replaceAllGo_id h l.length

theorem decodeEntities_id {l : List Char} (h : '&' ∉ l) : decodeEntities l = l := by
  unfold decodeEntities
  rw [show "&nbsp;".data = '&' :: "nbsp;".data from rfl, replaceAll_id h]
  rw [show "&amp;".data = '&' :: "amp;".data from rfl, replaceAll_id h]
  rw [show "&lt;".data = '&' :: "lt;".data from rfl, replaceAll_id h]
  rw [show "&gt;".data = '&' :: "gt;".data from rfl, replaceAll_id h]
  rw [show "&quot;".data = '&' :: "quot;".data from rfl, replaceAll_id h]
  rw [show "&#39;".data = '&' :: "#39;".data from rfl, replaceAll_id h]
  rw [show "&apos;".data = '&' :: "apos;".data from rfl, replaceAll_id h]

theorem truncate300_id {l : List Char} (h : l.length ≤ 300) : truncate300 l = l := by
  unfold truncate300
  rw [if_pos h]

theorem filter_allowPass_id {l : List Char} (h : ∀ c ∈ l, allowPass c = true) :
    l.filter allowPass = l :=
  List.filter_eq_self.mpr h

/-- C8 counterexample: `"a $ b"` sanitizes to `"a  b"` (the disallowed `'$'` is
deleted *after* whitespace normalisation, leaving two adjacent spaces), which is
far below the truncation limit yet not a fixed point of the sanitizer. -/
theorem sanitize_not_idempotent_cex :
    (processRawContent "a $ b").length < 300 ∧
    processRawContent (processRawContent "a $ b") ≠ processRawContent "a $ b" := by
  constructor
  · decide
  · decide

/-- C8 (amended): the sanitizer is idempotent on inputs whose sanitized form is
shorter than the 300-character limit *and* is left unchanged by the
whitespace-collapse-and-trim stage (no runs of whitespace, no leading or
trailing whitespace). The extra condition is forced: deleting a disallowed
character can leave two adjacent spaces, or a leading or trailing space, which a
second pass collapses. -/
theorem processRawContent_fixed {y : String}
    (hall : ∀ c ∈ y.data, allowPass c = true)
    (hlen : y.length < 300)
    (hws : normWs y.data = y.data) :
    processRawContent y = y := by
  by_cases hy : y = ""
  · rw [hy]; rfl
  · rw [processRawContent, if_neg hy]
    have hlt : '<' ∉ y.data := fun hmem => by
      have := hall '<' hmem
      simp [allowPass, isJsWs] at this
    have hamp : '&' ∉ y.data := fun hmem => by
      have := hall '&' hmem
      simp [allowPass, isJsWs] at this
    have hlen' : y.data.length ≤ 300 := by
      have : y.length = y.data.length := rfl
      omega
    rw [processRawContentCore, stripTags_id hlt, decodeEntities_id hamp, hws,
      filter_allowPass_id hall, truncate300_id hlen']

theorem sanitize_idempotent_on_normalized (x : String)
    (hlen : (processRawContent x).length < 300)
    (hws : normWs (processRawContent x).data = (processRawContent x).data) :
    processRawContent (processRawContent x) = processRawContent x := by
  refine processRawContent_fixed ?_ hlen hws
  by_cases hx : x = ""
  · subst hx
    intro c hc
    have h0 : processRawContent "" = "" := rfl
    rw [h0] at hc
    cases hc
  · rw [processRawContent, if_neg hx]
    intro c hc
    have hdm : ∀ t : List Char, (String.mk t).data = t := fun t => rfl
    rw [hdm] at hc
    exact allowPass_of_mem_core c hc

/-- Witness for the amended C8 statement at `"hello."`. -/
theorem sanitize_idempotent_on_normalized_witness :
    (processRawContent "hello.").length < 300 ∧
    normWs (processRawContent "hello.").data = (processRawContent "hello.").data ∧
    processRawContent (processRawContent "hello.") = processRawContent "hello." :=
  ⟨by decide, by decide,
    sanitize_idempotent_on_normalized "hello." (by decide) (by decide)⟩

/-- C10: the sanitizer is total. The `Except`-typed rendering of its body never
produces an error (the source body contains no `throw` and only total string
operations), the empty string maps to the empty string, and consequently the
route's per-result `catch`-and-fall-back-to-snippet branch is unreachable:
`tryProcess` always returns the sanitized raw content (or the snippet when the
result carried no raw content). -/
theorem processRawContent_total :
    processRawContent "" = "" ∧
    (∀ x : String, processRawContentE x = Except.ok (processRawContent x)) ∧
    (∀ r : SearchResult, tryProcess r =
      { r with fullContent := some (match r.raw_content with
          | some rc => processRawContent rc
          | none => r.content) }) := by
  have hE : ∀ x : String, processRawContentE x = Except.ok (processRawContent x) := by
    intro x
    by_cases hx : x = ""
    · subst hx; rfl
    · simp [processRawContentE, processRawContent, processRawContentCore, hx]
  refine ⟨rfl, hE, ?_⟩
  intro r
  cases hr : r.raw_content with
  | none => simp [tryProcess, hr]
  | some rc => simp [tryProcess, hr, hE rc]

/-! ## Lemmas about `mergeSearchResults` -/

theorem urlMapGet_set (m : List (String × SearchResult)) (k : String) (v : SearchResult)
    (u : String) :
    urlMapGet (urlMapSet m k v) u = if u = k then some v else urlMapGet m u := by
  induction m with
  | nil =>
    by_cases hu : u = k
    · subst hu; simp [urlMapSet, urlMapGet]
    · have hu2 : ¬k = u := fun h => hu h.symm
      simp [urlMapSet, urlMapGet, hu, hu2]
  | cons p rest ih =>
    obtain ⟨k', v'⟩ := p
    by_cases hk : k' = k
    · subst hk
      by_cases hu : u = k'
      · subst hu; simp [urlMapSet, urlMapGet]
      · have hu2 : ¬k' = u := fun h => hu h.symm
        simp [urlMapSet, urlMapGet, hu, hu2]
    · by_cases hu : k' = u
      · subst hu
        have hne : ¬k' = k := hk
        simp [urlMapSet, urlMapGet, hne]
      · by_cases huk : u = k
        · subst huk
          simp [urlMapSet, urlMapGet, hk, hu, ih]
        · simp [urlMapSet, urlMapGet, hk, hu, huk, ih]

theorem keys_urlMapSet (m : List (String × SearchResult)) (k : String) (v : SearchResult) :
    (urlMapSet m k v).map Prod.fst =
      if k ∈ m.map Prod.fst then m.map Prod.fst else m.map Prod.fst ++ [k] := by
  induction m with
  | nil => simp [urlMapSet]
  | cons p rest ih =>
    obtain ⟨k', v'⟩ := p
    by_cases hk : k' = k
    · subst hk; simp [urlMapSet]
    · have hne : ¬k = k' := fun h => hk h.symm
      by_cases hmem : k ∈ rest.map Prod.fst <;>
        simp [urlMapSet, hk, hne, hmem, ih]

theorem nodup_keys_urlMapSet {m : List (String × SearchResult)} {k : String}
    {v : SearchResult} (h : (m.map Prod.fst).Nodup) :
    ((urlMapSet m k v).map Prod.fst).Nodup := by
  rw [keys_urlMapSet]
  by_cases hmem : k ∈ m.map Prod.fst
  · simpa [hmem] using h
  · simp only [if_neg hmem]
    rw [List.nodup_append]
    exact ⟨h, List.nodup_singleton k, by simpa using fun hk => hmem hk⟩

theorem urlInv_urlMapSet {m : List (String × SearchResult)} {k : String} {v : SearchResult}
    (h : ∀ p ∈ m, (Prod.snd p).url = Prod.fst p) (hv : v.url = k) :
    ∀ p ∈ urlMapSet m k v, (Prod.snd p).url = Prod.fst p := by
  induction m with
  | nil =>
    simp only [urlMapSet]
    rw [List.forall_mem_cons]
    exact ⟨hv, by intro p hp; cases hp⟩
  | cons q rest ih =>
    obtain ⟨k', v'⟩ := q
    rw [List.forall_mem_cons] at h
    by_cases hk : k' = k
    · subst hk
      have hset : urlMapSet ((k', v') :: rest) k' v = (k', v) :: rest := by
        simp [urlMapSet]
      rw [hset, List.forall_mem_cons]
      exact ⟨hv, h.2⟩
    · have hset : urlMapSet ((k', v') :: rest) k v = (k', v') :: urlMapSet rest k v := by
        simp [urlMapSet, hk]
      rw [hset, List.forall_mem_cons]
      exact ⟨h.1, ih h.2⟩

theorem urlMapGet_mem_values {m : List (String × SearchResult)} {u : String}
    {x : SearchResult} (h : urlMapGet m u = some x) : x ∈ m.map Prod.snd := by
  induction m with
  | nil => cases h
  | cons p rest ih =>
    obtain ⟨k', v'⟩ := p
    by_cases hk : k' = u
    · simp only [urlMapGet, if_pos hk] at h
      injection h with h
      subst h
      exact List.mem_cons_self _ _
    · simp only [urlMapGet, if_neg hk] at h
      exact List.mem_cons_of_mem _ (ih h)

theorem urlMapGet_mem_keys {m : List (String × SearchResult)} {u : String}
    {x : SearchResult} (h : urlMapGet m u = some x) : u ∈ m.map Prod.fst := by
  induction m with
  | nil => cases h
  | cons p rest ih =>
    obtain ⟨k', v'⟩ := p
    by_cases hk : k' = u
    · subst hk; exact List.mem_cons_self _ _
    · simp only [urlMapGet, if_neg hk] at h
      exact List.mem_cons_of_mem _ (ih h)

theorem values_mem_urlMapGet {m : List (String × SearchResult)}
    (hkeys : (m.map Prod.fst).Nodup)
    (hinv : ∀ p ∈ m, (Prod.snd p).url = Prod.fst p)
    {x : SearchResult} (hx : x ∈ m.map Prod.snd) :
    urlMapGet m x.url = some x := by
  induction m with
  | nil => cases hx
  | cons p rest ih =>
    obtain ⟨k', v'⟩ := p
    simp only [List.map_cons, List.mem_cons] at hx
    rcases hx with rfl | hx
    · have : x.url = k' := hinv (k', x) (List.mem_cons_self _ _)
      simp [urlMapGet, this]
    · have hget : urlMapGet rest x.url = some x :=
        ih (List.Nodup.of_cons hkeys) (fun q hq => hinv q (List.mem_cons_of_mem _ hq)) hx
      have hne : ¬k' = x.url := by
        intro hk
        have : x.url ∈ rest.map Prod.fst := urlMapGet_mem_keys hget
        rw [List.map_cons, List.nodup_cons] at hkeys
        exact hkeys.1 (hk ▸ this)
      simp [urlMapGet, hne, hget]

theorem urlMapSet_fresh {m : List (String × SearchResult)} {k : String} {v : SearchResult}
    (h : k ∉ m.map Prod.fst) : urlMapSet m k v = m ++ [(k, v)] := by
  induction m with
  | nil => simp [urlMapSet]
  | cons p rest ih =>
    obtain ⟨k', v'⟩ := p
    simp only [List.map_cons, List.mem_cons] at h
    push_neg at h
    have hk : ¬k' = k := fun hh => h.1 hh.symm
    simp [urlMapSet, hk, ih h.2]

theorem addFirstSet_eq {rs : List SearchResult} :
    ∀ {m : List (String × SearchResult)},
      (∀ r ∈ rs, r.url ∉ m.map Prod.fst) → (rs.map SearchResult.url).Nodup →
      addFirstSet m rs = m ++ rs.map (fun r => (r.url, r)) := by
  induction rs with
  | nil => intro m _ _; simp [addFirstSet]
  | cons r rest ih =>
    intro m hfresh hnodup
    rw [List.forall_mem_cons] at hfresh
    have hset : urlMapSet m r.url r = m ++ [(r.url, r)] := urlMapSet_fresh hfresh.1
    have hfresh2 : ∀ s ∈ rest, s.url ∉ (m ++ [(r.url, r)]).map Prod.fst := by
      intro s hs
      rw [List.map_append, List.mem_append]
      rintro (hmem | hmem)
      · exact hfresh.2 s hs hmem
      · simp only [List.map_cons, List.map_nil, List.mem_singleton] at hmem
        rw [List.map_cons, List.nodup_cons] at hnodup
        exact hnodup.1 (hmem ▸ List.mem_map_of_mem SearchResult.url hs)
    have hnodup2 : (rest.map SearchResult.url).Nodup := by
      rw [List.map_cons, List.nodup_cons] at hnodup
      exact hnodup.2
    calc addFirstSet m (r :: rest)
        = addFirstSet (urlMapSet m r.url r) rest := rfl
      _ = (m ++ [(r.url, r)]) ++ rest.map (fun s => (s.url, s)) := by
          rw [hset]; exact ih hfresh2 hnodup2
      _ = m ++ (r :: rest).map (fun s => (s.url, s)) := by
          simp

/-- The map built by the first loop, starting from the empty map. -/
theorem addFirstSet_nil_eq {rs : List SearchResult} (h : (rs.map SearchResult.url).Nodup) :
    addFirstSet [] rs = rs.map (fun r => (r.url, r)) := by
  have := addFirstSet_eq (m := []) (by intro r _ hmem; cases hmem) h
  simpa using this

theorem pairMap_keys (rs : List SearchResult) :
    ((rs.map (fun r => (r.url, r))).map Prod.fst) = rs.map SearchResult.url := by
  simp [List.map_map]

theorem pairMap_values (rs : List SearchResult) :
    ((rs.map (fun r => (r.url, r))).map Prod.snd) = rs := by
  rw [List.map_map]
  exact List.map_id rs

theorem pairMap_urlInv (rs : List SearchResult) :
    ∀ p ∈ rs.map (fun r => (r.url, r)), (Prod.snd p).url = Prod.fst p := by
  intro p hp
  rw [List.mem_map] at hp
  obtain ⟨r, _, rfl⟩ := hp
  rfl

/-- JavaScript-style first lookup of a result by URL in a plain list. -/
def findByUrl : List SearchResult → String → Option SearchResult
  | [], _ => none
  | r :: rest, u => if r.url = u then some r else findByUrl rest u

theorem findByUrl_of_mem {b : List SearchResult} {r : SearchResult}
    (hnodup : (b.map SearchResult.url).Nodup) (hmem : r ∈ b) :
    findByUrl b r.url = some r := by
  induction b with
  | nil => cases hmem
  | cons s rest ih =>
    rw [List.mem_cons] at hmem
    rcases hmem with rfl | hmem
    · simp [findByUrl]
    · have hne : ¬s.url = r.url := by
        intro hh
        rw [List.map_cons, List.nodup_cons] at hnodup
        exact hnodup.1 (hh ▸ List.mem_map_of_mem SearchResult.url hmem)
      rw [List.map_cons, List.nodup_cons] at hnodup
      simp [findByUrl, hne, ih hnodup.2 hmem]

theorem findByUrl_none {b : List SearchResult} {u : String}
    (h : u ∉ b.map SearchResult.url) : findByUrl b u = none := by
  induction b with
  | nil => rfl
  | cons s rest ih =>
    simp only [List.map_cons, List.mem_cons] at h
    push_neg at h
    have hne : ¬s.url = u := fun hh => h.1 hh.symm
    simp [findByUrl, hne, ih h.2]

/-- One step of the second loop. -/
def mergeStep (m : List (String × SearchResult)) (r : SearchResult) :
    List (String × SearchResult) :=
  match urlMapGet m r.url with
  | none => urlMapSet m r.url r
  | some existing => if r.score > existing.score then urlMapSet m r.url r else m

theorem addSecondSet_eq_foldl (m : List (String × SearchResult)) (rs : List SearchResult) :
    addSecondSet m rs = rs.foldl mergeStep m := by
  unfold addSecondSet mergeStep
  rfl

theorem nodup_keys_mergeStep {m : List (String × SearchResult)} {r : SearchResult}
    (h : (m.map Prod.fst).Nodup) : ((mergeStep m r).map Prod.fst).Nodup := by
  unfold mergeStep
  cases urlMapGet m r.url with
  | none => exact nodup_keys_urlMapSet h
  | some existing =>
    by_cases hs : r.score > existing.score
    · simpa [hs] using nodup_keys_urlMapSet (v := r) h
    · simpa [hs] using h

theorem urlInv_mergeStep {m : List (String × SearchResult)} {r : SearchResult}
    (h : ∀ p ∈ m, (Prod.snd p).url = Prod.fst p) :
    ∀ p ∈ mergeStep m r, (Prod.snd p).url = Prod.fst p := by
  unfold mergeStep
  cases urlMapGet m r.url with
  | none => exact urlInv_urlMapSet h rfl
  | some existing =>
    by_cases hs : r.score > existing.score
    · simpa [hs] using urlInv_urlMapSet h rfl
    · simpa [hs] using h

theorem urlMapGet_mergeStep_ne {m : List (String × SearchResult)} {r : SearchResult}
    {u : String} (h : u ≠ r.url) : urlMapGet (mergeStep m r) u = urlMapGet m u := by
  unfold mergeStep
  cases urlMapGet m r.url with
  | none => rw [urlMapGet_set, if_neg h]
  | some existing =>
    by_cases hs : r.score > existing.score
    · simp only [if_pos hs]
      rw [urlMapGet_set, if_neg h]
    · simp only [if_neg hs]

theorem urlMapGet_mergeStep_eq {m : List (String × SearchResult)} {r : SearchResult} :
    urlMapGet (mergeStep m r) r.url =
      match urlMapGet m r.url with
      | none => some r
      | some existing => some (if r.score > existing.score then r else existing) := by
  unfold mergeStep
  cases hget : urlMapGet m r.url with
  | none => rw [urlMapGet_set, if_pos rfl]
  | some existing =>
    by_cases hs : r.score > existing.score
    · simp only [if_pos hs]
      rw [urlMapGet_set, if_pos rfl]
    · simp only [if_neg hs, hget]

/-- Pointwise characterisation of the second loop: for every URL the final
binding is the first set's entry, the second set's entry, or — when both are
present — the second only when its score is strictly greater. -/
theorem urlMapGet_addSecondSet {b : List SearchResult} :
    ∀ {m : List (String × SearchResult)}, (b.map SearchResult.url).Nodup →
    ∀ u, urlMapGet (addSecondSet m b) u =
      match urlMapGet m u, findByUrl b u with
      | none, none => none
      | some r1, none => some r1
      | none, some r2 => some r2
      | some r1, some r2 => some (if r2.score > r1.score then r2 else r1) := by
  induction b with
  | nil =>
    intro m _ u
    have h0 : addSecondSet m [] = m := rfl
    rw [h0]
    cases urlMapGet m u <;> simp [findByUrl]
  | cons r rest ih =>
    intro m hnodup u
    rw [List.map_cons, List.nodup_cons] at hnodup
    have hfold : addSecondSet m (r :: rest) = addSecondSet (mergeStep m r) rest := by
      rw [addSecondSet_eq_foldl, addSecondSet_eq_foldl]
      rfl
    rw [hfold, ih hnodup.2]
    by_cases hu : u = r.url
    · subst hu
      have hrest : findByUrl rest r.url = none := by
        apply findByUrl_none
        intro hmem
        exact hnodup.1 hmem
      rw [hrest, urlMapGet_mergeStep_eq]
      have hhead : findByUrl (r :: rest) r.url = some r := by
        simp [findByUrl]
      rw [hhead]
      cases urlMapGet m r.url <;> simp
    · have hne : ¬r.url = u := fun hh => hu hh.symm
      have hhead : findByUrl (r :: rest) u = findByUrl rest u := by
        simp [findByUrl, hne]
      rw [hhead, urlMapGet_mergeStep_ne hu]

theorem nodup_keys_addSecondSet {b : List SearchResult} :
    ∀ {m : List (String × SearchResult)}, (m.map Prod.fst).Nodup →
      ((addSecondSet m b).map Prod.fst).Nodup := by
  induction b with
  | nil => intro m h; exact h
  | cons r rest ih =>
    intro m h
    have hfold : addSecondSet m (r :: rest) = addSecondSet (mergeStep m r) rest := by
      rw [addSecondSet_eq_foldl, addSecondSet_eq_foldl]; rfl
    rw [hfold]
    exact ih (nodup_keys_mergeStep h)

theorem urlInv_addSecondSet {b : List SearchResult} :
    ∀ {m : List (String × SearchResult)}, (∀ p ∈ m, (Prod.snd p).url = Prod.fst p) →
      ∀ p ∈ addSecondSet m b, (Prod.snd p).url = Prod.fst p := by
  induction b with
  | nil => intro m h; exact h
  | cons r rest ih =>
    intro m h
    have hfold : addSecondSet m (r :: rest) = addSecondSet (mergeStep m r) rest := by
      rw [addSecondSet_eq_foldl, addSecondSet_eq_foldl]; rfl
    rw [hfold]
    exact ih (urlInv_mergeStep h)

/-- URLs are pairwise distinct among the values of a well-formed map. -/
theorem pairwise_url_ne_values {m : List (String × SearchResult)}
    (hkeys : (m.map Prod.fst).Nodup)
    (hinv : ∀ p ∈ m, (Prod.snd p).url = Prod.fst p) :
    (m.map Prod.snd).Pairwise (fun x y => x.url ≠ y.url) := by
  induction m with
  | nil => exact List.Pairwise.nil
  | cons p rest ih =>
    obtain ⟨k', v'⟩ := p
    rw [List.map_cons, List.nodup_cons] at hkeys
    rw [List.forall_mem_cons] at hinv
    rw [List.map_cons, List.pairwise_cons]
    refine ⟨?_, ih hkeys.2 hinv.2⟩
    intro y hy hurl
    obtain ⟨q, hq, hqy⟩ := List.mem_map.mp hy
    have hq2 : (Prod.snd q).url = Prod.fst q := hinv.2 q hq
    have hv : v'.url = k' := hinv.1
    apply hkeys.1
    have hk : k' = Prod.fst q := by
      rw [← hv, hurl, ← hqy, hq2]
    have hmem2 : Prod.fst q ∈ rest.map Prod.fst := List.mem_map_of_mem Prod.fst hq
    rw [hk]
    exact hmem2

/-! ## Lemmas about the descending sort -/

theorem perm_insertByScoreDesc (r : SearchResult) (l : List SearchResult) :
    List.Perm (insertByScoreDesc r l) (r :: l) := by
  induction l with
  | nil => exact List.Perm.refl _
  | cons s rest ih =>
    by_cases hs : s.score > r.score
    · have hstep : insertByScoreDesc r (s :: rest) = s :: insertByScoreDesc r rest := by
        simp [insertByScoreDesc, hs]
      rw [hstep]
      exact (List.Perm.cons s ih).trans (List.Perm.swap r s rest)
    · have hstep : insertByScoreDesc r (s :: rest) = r :: s :: rest := by
        simp [insertByScoreDesc, hs]
      rw [hstep]

theorem perm_sortByScoreDesc (l : List SearchResult) : List.Perm (sortByScoreDesc l) l := by
  induction l with
  | nil => exact List.Perm.refl _
  | cons r rest ih =>
    have hstep : sortByScoreDesc (r :: rest) = insertByScoreDesc r (sortByScoreDesc rest) := rfl
    rw [hstep]
    exact (perm_insertByScoreDesc r _).trans (List.Perm.cons r ih)

theorem mem_sortByScoreDesc {l : List SearchResult} {x : SearchResult} :
    x ∈ sortByScoreDesc l ↔ x ∈ l :=
  (perm_sortByScoreDesc l).mem_iff

theorem mem_insertByScoreDesc {r x : SearchResult} {l : List SearchResult}
    (h : x ∈ insertByScoreDesc r l) : x = r ∨ x ∈ l := by
  have := (perm_insertByScoreDesc r l).mem_iff.mp h
  simpa using this

theorem pairwise_ge_insertByScoreDesc {r : SearchResult} {l : List SearchResult}
    (h : l.Pairwise (fun x y => y.score ≤ x.score)) :
    (insertByScoreDesc r l).Pairwise (fun x y => y.score ≤ x.score) := by
  induction l with
  | nil => simp [insertByScoreDesc]
  | cons s rest ih =>
    rw [List.pairwise_cons] at h
    by_cases hs : s.score > r.score
    · have hstep : insertByScoreDesc r (s :: rest) = s :: insertByScoreDesc r rest := by
        simp [insertByScoreDesc, hs]
      rw [hstep, List.pairwise_cons]
      refine ⟨?_, ih h.2⟩
      intro y hy
      rcases mem_insertByScoreDesc hy with rfl | hy
      · exact le_of_lt hs
      · exact h.1 y hy
    · have hstep : insertByScoreDesc r (s :: rest) = r :: s :: rest := by
        simp [insertByScoreDesc, hs]
      rw [hstep, List.pairwise_cons]
      refine ⟨?_, ?_⟩
      · intro y hy
        rcases List.mem_cons.mp hy with rfl | hy
        · exact not_lt.mp hs
        · exact le_trans (h.1 y hy) (not_lt.mp hs)
      · rw [List.pairwise_cons]
        exact h

theorem pairwise_ge_sortByScoreDesc (l : List SearchResult) :
    (sortByScoreDesc l).Pairwise (fun x y => y.score ≤ x.score) := by
  induction l with
  | nil => exact List.Pairwise.nil
  | cons r rest ih =>
    have hstep : sortByScoreDesc (r :: rest) = insertByScoreDesc r (sortByScoreDesc rest) := rfl
    rw [hstep]
    exact pairwise_ge_insertByScoreDesc ih

theorem urlMapGet_pairMap (a : List SearchResult) (u : String) :
    urlMapGet (a.map (fun r => (r.url, r))) u = findByUrl a u := by
  induction a with
  | nil => rfl
  | cons r rest ih =>
    by_cases h : r.url = u <;> simp [urlMapGet, findByUrl, h, ih]

/-- The merged map, pointwise: the entry for `u` is the first set's entry, the
second set's entry, or — when both carry `u` — the second's exactly when its
score is strictly greater. -/
theorem urlMapGet_merged {a b : List SearchResult}
    (ha : (a.map SearchResult.url).Nodup) (hb : (b.map SearchResult.url).Nodup)
    (u : String) :
    urlMapGet (addSecondSet (addFirstSet [] a) b) u =
      match findByUrl a u, findByUrl b u with
      | none, none => none
      | some r1, none => some r1
      | none, some r2 => some r2
      | some r1, some r2 => some (if r2.score > r1.score then r2 else r1) := by
  rw [urlMapGet_addSecondSet hb, addFirstSet_nil_eq ha, urlMapGet_pairMap]

theorem nodup_keys_merged {a b : List SearchResult}
    (ha : (a.map SearchResult.url).Nodup) :
    ((addSecondSet (addFirstSet [] a) b).map Prod.fst).Nodup := by
  apply nodup_keys_addSecondSet
  rw [addFirstSet_nil_eq ha, pairMap_keys]
  exact ha

theorem urlInv_merged {a b : List SearchResult}
    (ha : (a.map SearchResult.url).Nodup) :
    ∀ p ∈ addSecondSet (addFirstSet [] a) b, (Prod.snd p).url = Prod.fst p := by
  apply urlInv_addSecondSet
  rw [addFirstSet_nil_eq ha]
  exact pairMap_urlInv a

theorem mem_merge_iff {a b : List SearchResult}
    (ha : (a.map SearchResult.url).Nodup) {x : SearchResult} :
    x ∈ mergeSearchResults a b ↔
      urlMapGet (addSecondSet (addFirstSet [] a) b) x.url = some x := by
  unfold mergeSearchResults
  rw [mem_sortByScoreDesc]
  constructor
  · exact values_mem_urlMapGet (nodup_keys_merged ha) (urlInv_merged ha)
  · exact urlMapGet_mem_values

/-- C4: `mergeSearchResults` deduplicates by URL; for a URL present in both
inputs with unequal scores the higher-score entry survives and the lower one is
dropped, whichever argument it came from; the output is sorted by descending
score; and merging with the empty second set returns a permutation of the first
set, sorted by descending score. URLs are assumed unique within each input
list, as the data model specifies for one result set. -/
theorem mergeSearchResults_spec (a b : List SearchResult)
    (ha : (a.map SearchResult.url).Nodup) (hb : (b.map SearchResult.url).Nodup) :
    (mergeSearchResults a b).Pairwise (fun x y => x.url ≠ y.url) ∧
    (mergeSearchResults a b).Pairwise (fun x y => y.score ≤ x.score) ∧
    (∀ r1 ∈ a, ∀ r2 ∈ b, r1.url = r2.url → r1.score < r2.score →
      r2 ∈ mergeSearchResults a b ∧ r1 ∉ mergeSearchResults a b) ∧
    (∀ r1 ∈ a, ∀ r2 ∈ b, r1.url = r2.url → r2.score < r1.score →
      r1 ∈ mergeSearchResults a b ∧ r2 ∉ mergeSearchResults a b) ∧
    List.Perm (mergeSearchResults a []) a ∧
    (mergeSearchResults a []).Pairwise (fun x y => y.score ≤ x.score) := by
  have hvals : mergeSearchResults a [] = sortByScoreDesc a := by
    unfold mergeSearchResults
    have h0 : addSecondSet (addFirstSet [] a) [] = addFirstSet [] a := rfl
    rw [h0, addFirstSet_nil_eq ha, pairMap_values]
  refine ⟨?_, ?_, ?_, ?_, ?_, ?_⟩
  · exact ((perm_sortByScoreDesc _).pairwise_iff (fun h hxy => h hxy.symm)).mpr
      (pairwise_url_ne_values (nodup_keys_merged ha) (urlInv_merged ha))
  · exact pairwise_ge_sortByScoreDesc _
  · intro r1 h1 r2 h2 hurl hs
    have hfa : findByUrl a r1.url = some r1 := findByUrl_of_mem ha h1
    have hfb : findByUrl b r1.url = some r2 := by
      rw [hurl]; exact findByUrl_of_mem hb h2
    have hget : urlMapGet (addSecondSet (addFirstSet [] a) b) r1.url = some r2 := by
      rw [urlMapGet_merged ha hb, hfa, hfb]
      simp only [if_pos hs]
    constructor
    · rw [mem_merge_iff ha, ← hurl, hget]
    · intro hmem
      rw [mem_merge_iff ha, hget] at hmem
      injection hmem with hmem
      rw [hmem] at hs
      exact lt_irrefl _ hs
  · intro r1 h1 r2 h2 hurl hs
    have hfa : findByUrl a r1.url = some r1 := findByUrl_of_mem ha h1
    have hfb : findByUrl b r1.url = some r2 := by
      rw [hurl]; exact findByUrl_of_mem hb h2
    have hget : urlMapGet (addSecondSet (addFirstSet [] a) b) r1.url = some r1 := by
      rw [urlMapGet_merged ha hb, hfa, hfb]
      simp only [if_neg (asymm hs)]
    constructor
    · rw [mem_merge_iff ha, hget]
    · intro hmem
      rw [mem_merge_iff ha, ← hurl, hget] at hmem
      injection hmem with hmem
      rw [hmem] at hs
      exact lt_irrefl _ hs
  · rw [hvals]; exact perm_sortByScoreDesc a
  · rw [hvals]; exact pairwise_ge_sortByScoreDesc a

/-- Witness for C4 on two concrete two-element result sets sharing one URL. -/
theorem mergeSearchResults_spec_witness :
    (([{ title := "t1", url := "u", content := "c1", score := 1, raw_content := none,
         fullContent := none }] : List SearchResult).map SearchResult.url).Nodup ∧
    (([{ title := "t2", url := "u", content := "c2", score := 2, raw_content := none,
         fullContent := none }] : List SearchResult).map SearchResult.url).Nodup ∧
    (mergeSearchResults
      [{ title := "t1", url := "u", content := "c1", score := 1, raw_content := none,
         fullContent := none }]
      [{ title := "t2", url := "u", content := "c2", score := 2, raw_content := none,
         fullContent := none }]).Pairwise (fun x y => x.url ≠ y.url) :=
  ⟨by decide, by decide,
    (mergeSearchResults_spec
      [{ title := "t1", url := "u", content := "c1", score := 1, raw_content := none,
         fullContent := none }]
      [{ title := "t2", url := "u", content := "c2", score := 2, raw_content := none,
         fullContent := none }] (by decide) (by decide)).1⟩

/-- C9 (implicit tie-break): when a URL occurs in both arguments and the second
entry's score is not strictly greater, the first argument's entry survives and
the second's is dropped. Together with C4 this pins the deterministic
tie-break: the second argument replaces the first only on strictly greater
score. -/
theorem mergeSearchResults_tiebreak (a b : List SearchResult)
    (ha : (a.map SearchResult.url).Nodup) (hb : (b.map SearchResult.url).Nodup) :
    ∀ r1 ∈ a, ∀ r2 ∈ b, r1.url = r2.url → ¬r1.score < r2.score →
      r1 ∈ mergeSearchResults a b ∧ (r2 ≠ r1 → r2 ∉ mergeSearchResults a b) := by
  intro r1 h1 r2 h2 hurl hs
  have hfa : findByUrl a r1.url = some r1 := findByUrl_of_mem ha h1
  have hfb : findByUrl b r1.url = some r2 := by
    rw [hurl]; exact findByUrl_of_mem hb h2
  have hget : urlMapGet (addSecondSet (addFirstSet [] a) b) r1.url = some r1 := by
    rw [urlMapGet_merged ha hb, hfa, hfb]
    simp only [if_neg hs]
  constructor
  · rw [mem_merge_iff ha, hget]
  · intro hne hmem
    rw [mem_merge_iff ha, ← hurl, hget] at hmem
    injection hmem with hmem
    exact hne hmem.symm

/-- Witness for C9: equal scores on the same URL keep the first argument's
entry and drop the second's. -/
theorem mergeSearchResults_tiebreak_witness :
    (([{ title := "t1", url := "u", content := "c1", score := 1, raw_content := none,
         fullContent := none }] : List SearchResult).map SearchResult.url).Nodup ∧
    ({ title := "t1", url := "u", content := "c1", score := 1, raw_content := none,
       fullContent := none } : SearchResult) ∈ mergeSearchResults
      [{ title := "t1", url := "u", content := "c1", score := 1, raw_content := none,
         fullContent := none }]
      [{ title := "t2", url := "u", content := "c2", score := 1, raw_content := none,
         fullContent := none }] :=
  ⟨by decide,
    ((mergeSearchResults_tiebreak
      [{ title := "t1", url := "u", content := "c1", score := 1, raw_content := none,
         fullContent := none }]
      [{ title := "t2", url := "u", content := "c2", score := 1, raw_content := none,
         fullContent := none }] (by decide) (by decide)
      { title := "t1", url := "u", content := "c1", score := 1, raw_content := none,
        fullContent := none } (by decide)
      { title := "t2", url := "u", content := "c2", score := 1, raw_content := none,
        fullContent := none } (by decide) (by decide) (by decide)).1)⟩

theorem rq_pre_shape (rq : Option String) :
    (match rq with
     | some q => if q = "" then [] else [OutboundEvent.reformulatedQuery q]
     | none => []) = [] ∨
    ∃ q, rq = some q ∧
      (match rq with
       | some q => if q = "" then [] else [OutboundEvent.reformulatedQuery q]
       | none => []) = [OutboundEvent.reformulatedQuery q] := by
  cases rq with
  | none => exact Or.inl rfl
  | some q =>
    by_cases h : q = ""
    · exact Or.inl (by simp [h])
    · exact Or.inr ⟨q, rfl, by simp [h]⟩

/-- C1: every event stream the handler opens emits
`[ReformulatedQuery?] [Sources] [TextDelta]* [Done ∨ Error]`: at most one
reformulated-query event and only in first position, exactly one sources event
before any text delta, exactly one terminal event in last position, and the
controller is closed only after the terminal event has been enqueued. -/
theorem stream_event_shape (rq : Option String) (srcs : List SearchResult)
    (out : GeminiOutcome) :
    ∃ (pre : List OutboundEvent) (ds : List String) (term : OutboundEvent),
      (pre = [] ∨ ∃ q, rq = some q ∧ pre = [OutboundEvent.reformulatedQuery q]) ∧
      (term = OutboundEvent.done ∨ ∃ e d, term = OutboundEvent.error e d) ∧
      streamEvents rq srcs out =
        pre ++ [OutboundEvent.sources srcs] ++ List.map OutboundEvent.text ds ++ [term] ∧
      streamTrace rq srcs out =
        List.map StreamAction.emit (streamEvents rq srcs out) ++ [StreamAction.close] := by
  cases out with
  | fetchFailed msg =>
    exact ⟨_, [], OutboundEvent.error "Error while streaming AI response" msg,
      rq_pre_shape rq, Or.inr ⟨_, _, rfl⟩, by simp [streamEvents], rfl⟩
  | badStatus status body =>
    exact ⟨_, [], OutboundEvent.error "Error while streaming AI response"
        ("Gemini API returned status " ++ toString status ++ ": " ++ body),
      rq_pre_shape rq, Or.inr ⟨_, _, rfl⟩, by simp [streamEvents], rfl⟩
  | noBody =>
    exact ⟨_, [], OutboundEvent.error "Error while streaming AI response"
        "No response body from Gemini",
      rq_pre_shape rq, Or.inr ⟨_, _, rfl⟩, by simp [streamEvents], rfl⟩
  | chunks received readFailure =>
    cases readFailure with
    | none =>
      exact ⟨_, decodeChunks received, OutboundEvent.done,
        rq_pre_shape rq, Or.inl rfl, by simp [streamEvents], rfl⟩
    | some msg =>
      exact ⟨_, decodeChunks received,
        OutboundEvent.error "Error while streaming AI response" msg,
        rq_pre_shape rq, Or.inr ⟨_, _, rfl⟩, by simp [streamEvents], rfl⟩

/-- C2 refuted on the code: the decoder is *not* chunking-invariant. The same
upstream bytes `[{"candidates":[{"content":{"parts":[{"text":"hi"}]}}]}]`
yield no fragment when delivered as one chunk — the `[`-branch of the scan loop
does not set `processedSomething`, so the loop exits right after consuming the
bracket and the buffered object is never parsed before the stream ends — but
yield `"hi"` when the leading bracket arrives in its own chunk. -/
theorem decoder_chunking_dependent :
    decodeChunks
      ["[\x7b\"candidates\":[\x7b\"content\":\x7b\"parts\":[\x7b\"text\":\"hi\"\x7d]\x7d\x7d]\x7d]"]
      = [] ∧
    decodeChunks
      ["[", "\x7b\"candidates\":[\x7b\"content\":\x7b\"parts\":[\x7b\"text\":\"hi\"\x7d]\x7d\x7d]\x7d]"]
      = ["hi"] := by
  constructor
  · decide
  · decide

/-- C3 refuted on the code: an upstream error payload does not terminate the
stream with an `Error` event. The `throw` at route.ts:420 is caught by the
enclosing `catch` at route.ts:436 (meant for `JSON.parse` failures), which only
logs; the object is skipped and the stream ends with `Done`. -/
theorem upstream_error_swallowed :
    streamEvents none []
      (GeminiOutcome.chunks ["\x7b\"error\":\x7b\"message\":\"boom\"\x7d\x7d"] none)
      = [OutboundEvent.sources [], OutboundEvent.done] := by
  decide

/-- A concrete environment: keys configured, search returns no results, the
generator would stream an empty body. -/
def envEmpty : Env :=
  { googleKey := some "key", tavilyKey := some "key",
    reformulateResponse := Except.ok "",
    tavily := fun _ => Except.ok [],
    gemini := GeminiOutcome.chunks [] none }

/-- C5 refuted on the code: a whitespace-only query is *not* rejected with 400.
`z.string().min(1).trim()` checks the minimum length before trimming, so `" "`
passes validation, is trimmed to `""`, and the turn dies in `searchTavily`'s
blank-query guard, surfacing as a structured 500. -/
theorem whitespace_query_500_cex :
    jsTrim " " = "" ∧
    POST " " [] envEmpty =
      RouteResult.json 500 "Failed to fetch search results for query: \"\""
        "Search query cannot be empty" :=
  ⟨rfl, rfl⟩

theorem searchTavily_blank (env : Env) : ∃ e, searchTavily "" env = Except.error e := by
  unfold searchTavily
  cases env.tavilyKey with
  | none => exact ⟨_, rfl⟩
  | some k =>
    have h0 : jsTrim "" = "" := rfl
    rw [h0]
    exact ⟨_, rfl⟩

theorem searchStage_blank (rq : Option String) (env : Env) :
    ∃ e, searchStage "" rq env = Except.error e := by
  unfold searchStage
  cases rq with
  | none => exact searchTavily_blank env
  | some r =>
    by_cases hr : r ≠ ""
    · obtain ⟨e, he⟩ := searchTavily_blank env
      simp only [if_pos hr, he]
      refine ⟨e, ?_⟩
      cases searchTavily r env <;> rfl
    · simp only [if_neg hr]
      exact searchTavily_blank env

/-- C5 (amended): a request whose query is empty *after trimming* always gets a
structured JSON error and no event stream, but with status 400 only for the
genuinely empty string; a whitespace-only query passes validation (the
minimum-length check runs before the trim transform) and fails in the search
stage as a 500. -/
theorem blank_query_no_stream (query : String) (history : List ConversationEntry)
    (env : Env) (k : String) (hk : env.googleKey = some k) (hq : jsTrim query = "") :
    ∃ st e d, POST query history env = RouteResult.json st e d ∧
      st = if query.length = 0 then 400 else 500 := by
  by_cases hlen : query.length < 1
  · refine ⟨400, "Invalid request: query is required and cannot be empty",
      "String must contain at least 1 character(s)", ?_, ?_⟩
    · unfold POST
      rw [if_pos hlen]
    · rw [if_pos (by omega)]
  · obtain ⟨e, he⟩ := searchStage_blank (reformulatedQueryOf "" history env) env
    have hpost : POST query history env =
        RouteResult.json 500
          ("Failed to fetch search results for query: \"" ++ jsTrim query ++ "\"") e := by
      unfold POST
      rw [if_neg hlen, hk, hq, he]
    exact ⟨500, _, _, hpost, by rw [if_neg (by omega)]⟩

/-- Witness for the amended C5 statement at the whitespace-only query. -/
theorem blank_query_no_stream_witness :
    envEmpty.googleKey = some "key" ∧ jsTrim " " = "" ∧
    ∃ st e d, POST " " [] envEmpty = RouteResult.json st e d ∧
      st = if (" ").length = 0 then 400 else 500 :=
  ⟨rfl, rfl, blank_query_no_stream " " [] envEmpty "key" rfl rfl⟩

/-- C6: with configuration present and a successful search stage, the handler
answers the structured 404 error exactly when the (merged) result sequence is
empty — before any event, with no partial stream — and opens the event stream
otherwise. -/
theorem no_results_404 (query : String) (history : List ConversationEntry) (env : Env)
    (k : String) (rs : List SearchResult)
    (hk : env.googleKey = some k)
    (hq : ¬query.length < 1)
    (hs : searchStage (jsTrim query) (reformulatedQueryOf (jsTrim query) history env) env
          = Except.ok rs) :
    (rs = [] ↔ ∃ e d, POST query history env = RouteResult.json 404 e d) ∧
    (rs ≠ [] → ∃ tr, POST query history env = RouteResult.stream tr) := by
  have hpost : POST query history env =
      if (rs.map tryProcess).length = 0 then
        RouteResult.json 404
          ("No search results found for query: \"" ++ jsTrim query ++ "\"")
          "Tavily returned an empty result set"
      else
        RouteResult.stream
          (streamTrace (reformulatedQueryOf (jsTrim query) history env)
            (rs.map tryProcess) env.gemini) := by
    unfold POST
    rw [if_neg hq, hk, hs]
  rw [List.length_map] at hpost
  constructor
  · constructor
    · intro hrs
      subst hrs
      rw [hpost]
      exact ⟨_, _, rfl⟩
    · rintro ⟨e, d, hjson⟩
      by_contra hne
      have hlen : ¬rs.length = 0 := fun h => hne (List.length_eq_zero.mp h)
      rw [hpost, if_neg hlen] at hjson
      cases hjson
  · intro hne
    have hlen : ¬rs.length = 0 := fun h => hne (List.length_eq_zero.mp h)
    rw [hpost, if_neg hlen]
    exact ⟨_, rfl⟩

/-- Witness for C6 with a search stage that returns no results. -/
theorem no_results_404_witness :
    envEmpty.googleKey = some "key" ∧ ¬("hi" : String).length < 1 ∧
    searchStage (jsTrim "hi") (reformulatedQueryOf (jsTrim "hi") [] envEmpty) envEmpty
      = Except.ok [] ∧
    (([] : List SearchResult) = [] ↔
      ∃ e d, POST "hi" [] envEmpty = RouteResult.json 404 e d) :=
  ⟨rfl, by decide, rfl,
    (no_results_404 "hi" [] envEmpty "key" [] rfl (by decide) rfl).1⟩

/-- C7: when the reformulation call fails with non-empty history, the turn
survives: no reformulated-query event is produced and the search/stream path is
exactly the original-query path — on a successful non-empty search the stream
opens with the original query's sources. -/
theorem reformulation_failure_not_fatal (query : String) (history : List ConversationEntry)
    (env : Env) (k e : String) (rs : List SearchResult)
    (hh : history ≠ [])
    (hr : env.reformulateResponse = Except.error e)
    (hk : env.googleKey = some k)
    (hq : ¬query.length < 1)
    (hs : searchTavily (jsTrim query) env = Except.ok rs)
    (hne : rs ≠ []) :
    POST query history env =
      RouteResult.stream (streamTrace none (rs.map tryProcess) env.gemini) := by
  have hrq : reformulatedQueryOf (jsTrim query) history env = none := by
    unfold reformulatedQueryOf reformulateQuery
    rw [hr]
    have hpos : history.length > 0 := List.length_pos.mpr hh
    rw [if_pos hpos]
  have hstage : searchStage (jsTrim query)
      (reformulatedQueryOf (jsTrim query) history env) env = Except.ok rs := by
    rw [hrq]
    exact hs
  have hlen : ¬(rs.map tryProcess).length = 0 := by
    rw [List.length_map]
    exact fun h => hne (List.length_eq_zero.mp h)
  unfold POST
  rw [if_neg hq, hk, hstage]
  simp only [hrq]
  rw [if_neg hlen]

/-- A single concrete search result. -/
def oneResult : SearchResult :=
  { title := "t", url := "u", content := "c", score := 1, raw_content := none,
    fullContent := none }

/-- Environment whose reformulation call fails and whose search succeeds. -/
def envReformFail : Env :=
  { googleKey := some "key", tavilyKey := some "key",
    reformulateResponse := Except.error "boom",
    tavily := fun _ => Except.ok [oneResult],
    gemini := GeminiOutcome.chunks [] none }

/-- Witness for C7 at a concrete request with one history entry. -/
theorem reformulation_failure_not_fatal_witness :
    ([⟨"q0", "a0", none⟩] : List ConversationEntry) ≠ [] ∧
    envReformFail.reformulateResponse = Except.error "boom" ∧
    envReformFail.googleKey = some "key" ∧
    ¬("hi" : String).length < 1 ∧
    searchTavily (jsTrim "hi") envReformFail = Except.ok [oneResult] ∧
    ([oneResult] ≠ []) ∧
    POST "hi" [⟨"q0", "a0", none⟩] envReformFail =
      RouteResult.stream (streamTrace none ([oneResult].map tryProcess) envReformFail.gemini) :=
  ⟨by decide, rfl, rfl, by decide, rfl, by decide,
    reformulation_failure_not_fatal "hi" [⟨"q0", "a0", none⟩] envReformFail "key" "boom"
      [oneResult] (by decide) rfl rfl (by decide) rfl (by decide)⟩
